import Mathlib

/-!
Verification of the gweet core: a keyed ephemeral message queue.

This file shallowly embeds the concurrency-sensitive core of the program:
the cache actor (`Cacher`), the reference-counted pub/sub topic registry
(`TopicMapStruct`), the snapshot/ingest handlers and the chunked framing
helper (`Chunk`).  Go maps are modelled as functions into `Option`, Go
pointers to topics as indices into a topic heap, machine integers as `Nat`
with explicit reduction modulo `2 ^ 64` where wrap-around matters, and
time as `Nat` nanoseconds.
-/

namespace Gweet

/-- Bound on each key's history length (`MaxQueueLength` in the source). -/
def MaxQueueLength : Nat := 100

/-- Idle lifetime of a key's history in nanoseconds
(`ItemLifetime = 5 * 24 * time.Hour` in the source). -/
def ItemLifetime : Nat := 5 * 24 * 60 * 60 * 1000000000

/-! ## Topic registry (`TopicMapStruct` from the topic-map source file)

A `TopicMapEntry` holds a pointer to an external broadcast topic and a
`uint64` subscriber count.  The pointer is modelled as an index `t` into a
heap `topics : Nat → List Nat` mapping each allocated topic to the list of
channels currently registered with it; channels are modelled as `Nat`
identifiers allocated from `nextChan`.  Crucially, the Go map stores
entries **by value** (`m map[string]TopicMapEntry`), so field updates made
on the local copy obtained from a map lookup are never written back; the
embedding reproduces this exactly: `Register` and `Unregister` update the
shared topic heap (reached through the pointer field) but never write an
updated `count` back into the map. -/

structure TopicMapEntry where
  t : Nat
  count : Nat
deriving DecidableEq, Repr

structure TopicMapStruct where
  m : String → Option TopicMapEntry
  topics : Nat → List Nat
  nextTopic : Nat
  nextChan : Nat

/-- Initial registry: `TopicMapStruct{m: make(map[string]TopicMapEntry)}`. -/
def initTopicMap : TopicMapStruct :=
  { m := fun _ => none, topics := fun _ => [], nextTopic := 0, nextChan := 0 }

/-- Embeds `TopicMapStruct.Register`.  It looks the key up; if absent it
stores a fresh entry `TopicMapEntry{topic.New(), 0}`; the subsequent
`t.count++` increments only the local copy (a no-op on the stored map
value, so it is not reflected in the state); finally a fresh channel is
made and registered with the entry's (shared, pointer-reached) topic.
Returns the updated registry and the new channel. -/
def TopicMapStruct.Register (tms : TopicMapStruct) (key : String) :
    TopicMapStruct × Nat :=
  let (t, tms1) :=
    match tms.m key with
    | some t => (t, tms)
    | none =>
      let t : TopicMapEntry := ⟨tms.nextTopic, 0⟩
      (t, { tms with
              m := Function.update tms.m key (some t)
              topics := Function.update tms.topics tms.nextTopic []
              nextTopic := tms.nextTopic + 1 })
  -- t.count++ acts on the local copy only and is dropped here.
  let ch := tms1.nextChan
  let tms2 := { tms1 with
                  nextChan := tms1.nextChan + 1
                  topics := Function.update tms1.topics t.t
                    (tms1.topics t.t ++ [ch]) }
  (tms2, ch)

/-- Embeds `TopicMapStruct.Unregister`.  A missing key returns at once.
Otherwise the channel is removed from the entry's topic, and `t.count--`
decrements the **local copy** of the `uint64` count (modelled with an
explicit wrap-around modulo `2 ^ 64`); only when that local value is zero
is the entry deleted from the map. -/
def TopicMapStruct.Unregister (tms : TopicMapStruct) (key : String)
    (ch : Nat) : TopicMapStruct :=
  match tms.m key with
  | none => tms
  | some t =>
    { m := if (t.count + (2 ^ 64 - 1)) % 2 ^ 64 = 0 then
             Function.update tms.m key none
           else tms.m
      topics := Function.update tms.topics t.t ((tms.topics t.t).erase ch)
      nextTopic := tms.nextTopic
      nextChan := tms.nextChan }

/-- Channels a broadcast for `key` is delivered to: the registered
channels of the key's topic, none when no group exists (the read-locked
lookup in `Cacher`, combined with the external topic's fan-out set). -/
def TopicMapStruct.BroadcastChannels (tms : TopicMapStruct)
    (key : String) : List Nat :=
  match tms.m key with
  | none => []
  | some t => tms.topics t.t

/-- Operations that mutate the registry, for reachability. -/
inductive TMOp where
  | reg (key : String)
  | unreg (key : String) (ch : Nat)

/-- Applies one registry operation. -/
def applyTMOp (tms : TopicMapStruct) : TMOp → TopicMapStruct
  | .reg key => (tms.Register key).1
  | .unreg key ch => tms.Unregister key ch

/-- Registry state after a sequence of operations from the initial map. -/
def runTMOps (ops : List TMOp) : TopicMapStruct :=
  ops.foldl applyTMOp initTopicMap

/-- Reachable registry states. -/
def ReachableTM (tms : TopicMapStruct) : Prop :=
  ∃ ops : List TMOp, runTMOps ops = tms

/-- Every stored entry's count field is zero (the count is never written
back after creation). -/
def CountZeroInv (tms : TopicMapStruct) : Prop :=
  ∀ key t, tms.m key = some t → t.count = 0

theorem countZeroInv_init : CountZeroInv initTopicMap := by
  intro key t h
  simp [initTopicMap] at h

theorem countZeroInv_register (tms : TopicMapStruct) (key : String)
    (h : CountZeroInv tms) : CountZeroInv (tms.Register key).1 := by
  intro k' t' h'
  unfold TopicMapStruct.Register at h'
  cases hm : tms.m key with
  | some t =>
    rw [hm] at h'
    exact h k' t' h'
  | none =>
    rw [hm] at h'
    simp only [Function.update_apply] at h'
    by_cases hk : k' = key
    · simp only [if_pos hk] at h'
      cases h'
      rfl
    · simp only [if_neg hk] at h'
      exact h k' t' h'

theorem countZeroInv_unregister (tms : TopicMapStruct) (key : String)
    (ch : Nat) (h : CountZeroInv tms) :
    CountZeroInv (tms.Unregister key ch) := by
  intro k' t' h'
  unfold TopicMapStruct.Unregister at h'
  cases hm : tms.m key with
  | none =>
    rw [hm] at h'
    exact h k' t' h'
  | some t =>
    rw [hm] at h'
    dsimp only at h'
    by_cases hc : (t.count + (2 ^ 64 - 1)) % 2 ^ 64 = 0
    · rw [if_pos hc, Function.update_apply] at h'
      by_cases hk : k' = key
      · simp [if_pos hk] at h'
      · rw [if_neg hk] at h'
        exact h k' t' h'
    · rw [if_neg hc] at h'
      exact h k' t' h'

theorem countZeroInv_reachable (tms : TopicMapStruct)
    (h : ReachableTM tms) : CountZeroInv tms := by
  obtain ⟨ops, rfl⟩ := h
  unfold runTMOps
  induction ops using List.reverseRecOn with
  | nil => exact countZeroInv_init
  | append_singleton l op ih =>
    rw [List.foldl_append]
    cases op with
    | reg key => exact countZeroInv_register _ key ih
    | unreg key ch => exact countZeroInv_unregister _ key ch ih

/-! ## Cache actor (`Cacher` and `CacheMessage` from the cache source file)

The external bounded-TTL store (`go-cache`) is modelled as a function from
keys to an optional pair of the stored message list and its expiration
time in nanoseconds.  `Get` reports a key absent once the current time
exceeds the expiration; `Set` (always called with the default TTL) stores
the value with expiration `now + ItemLifetime`, refreshing the lifetime on
every write.  Messages are an arbitrary type `α` (they are `interface{}`
values in the source).  The actor's observable behaviour per command is a
list of ordered events: the reply sent on a read's back-channel, the store
update of a write, and the per-channel broadcast deliveries. -/

def Store (α : Type) : Type := String → Option (List α × Nat)

/-- Embeds `c.Get(key)` of the TTL store at time `now`: `none` when the
key is absent or its expiration has passed. -/
def cacheGet {α : Type} (s : Store α) (key : String) (now : Nat) :
    Option (List α) :=
  match s key with
  | none => none
  | some (v, exp) => if exp < now then none else some v

/-- Embeds `c.Set(key, value, 0)` of the TTL store at time `now`: stores
`v` under `key` with the full default lifetime. -/
def cacheSet {α : Type} (s : Store α) (key : String) (v : List α)
    (now : Nat) : Store α :=
  Function.update s key (some (v, now + ItemLifetime))

/-- Embeds `CacheMessage`: `operation` 0 is a read (whose `data` is the
reply back-channel), anything else a write carrying the message. -/
inductive CacheCmd (α : Type) where
  | read (key : String)
  | write (key : String) (data : α)

/-- Observable events of the cache actor, in program order: the reply
sent on a read's back-channel, the `c.Set` of a write, and the delivery
of a broadcast message to one subscriber channel. -/
inductive CacheEvent (α : Type) where
  | reply (key : String) (msgs : List α)
  | store (key : String) (data : α)
  | deliver (ch : Nat) (data : α)
deriving DecidableEq

/-- Embeds the body of a write: append to the fetched history, then
`messages[1:]` when the length exceeds `MaxQueueLength`. -/
def enqueue {α : Type} (q : List α) (d : α) : List α :=
  if MaxQueueLength < (q ++ [d]).length then (q ++ [d]).drop 1 else q ++ [d]

/-- Embeds one iteration of the `Cacher` loop on one bus message at time
`now`.  Reads reply with the fetched history (empty when absent or
expired) and touch nothing.  Writes append, truncate, `Set` (refreshing
the TTL), and then broadcast the written message to the channels of the
key's topic — in that order.  The registry `tm` is only read (under a
read lock), never mutated. -/
def cacherStep {α : Type} (tm : TopicMapStruct) (s : Store α) (now : Nat) :
    CacheCmd α → Store α × List (CacheEvent α)
  | .read key =>
    (s, [.reply key ((cacheGet s key now).getD [])])
  | .write key d =>
    let messages := enqueue ((cacheGet s key now).getD []) d
    (cacheSet s key messages now,
     .store key d :: (tm.BroadcastChannels key).map (fun ch => .deliver ch d))

/-- Runs the cache actor over a queue of time-stamped commands,
collecting the events of every iteration in order. -/
def cacherRun {α : Type} (tm : TopicMapStruct) :
    Store α → List (Nat × CacheCmd α) → Store α × List (CacheEvent α)
  | s, [] => (s, [])
  | s, (now, cmd) :: rest =>
    let out := cacherStep tm s now cmd
    let outRest := cacherRun tm out.1 rest
    (outRest.1, out.2 ++ outRest.2)

theorem cacherRun_append {α : Type} (tm : TopicMapStruct) (s : Store α)
    (l1 l2 : List (Nat × CacheCmd α)) :
    cacherRun tm s (l1 ++ l2) =
      ((cacherRun tm (cacherRun tm s l1).1 l2).1,
       (cacherRun tm s l1).2 ++ (cacherRun tm (cacherRun tm s l1).1 l2).2) := by
  induction l1 generalizing s with
  | nil => simp [cacherRun]
  | cons p rest ih =>
    obtain ⟨now, cmd⟩ := p
    simp [cacherRun, ih]

/-- Appending to a queue always leaves the new message last. -/
theorem enqueue_getLast? {α : Type} (q : List α) (d : α) :
    (enqueue q d).getLast? = some d := by
  unfold enqueue
  by_cases h : MaxQueueLength < (q ++ [d]).length
  · rw [if_pos h]
    cases q with
    | nil => simp [MaxQueueLength] at h
    | cons a q' => simp
  · rw [if_neg h]
    simp

/-- Folding `enqueue` from the empty queue keeps exactly the trailing
`MaxQueueLength` elements, in order. -/
theorem foldl_enqueue_eq_drop {α : Type} (ds : List α) :
    ds.foldl enqueue [] = ds.drop (ds.length - MaxQueueLength) := by
  induction ds using List.reverseRecOn with
  | nil => simp
  | append_singleton l d ih =>
    rw [List.foldl_append, List.foldl_cons, List.foldl_nil, ih]
    unfold enqueue
    by_cases h : 100 ≤ l.length
    · have hq : (l.drop (l.length - MaxQueueLength)).length = 100 := by
        rw [List.length_drop]
        show l.length - (l.length - 100) = 100
        omega
      rw [if_pos (by
        rw [List.length_append, hq]
        show 100 < 100 + [d].length
        simp)]
      rw [List.drop_append_of_le_length (by rw [hq]; omega)]
      rw [List.drop_drop]
      have he : (l ++ [d]).length - MaxQueueLength = l.length - MaxQueueLength + 1 := by
        rw [List.length_append]
        show l.length + [d].length - 100 = l.length - 100 + 1
        simp
        omega
      rw [he, List.drop_append_of_le_length (by
        show l.length - 100 + 1 ≤ l.length
        omega)]
    · have h0 : l.length - MaxQueueLength = 0 := by
        show l.length - 100 = 0
        omega
      have h1 : (l ++ [d]).length - MaxQueueLength = 0 := by
        rw [List.length_append]
        show l.length + [d].length - 100 = 0
        simp
        omega
      rw [h0, h1]
      rw [if_neg (by
        rw [List.drop_zero, List.length_append]
        show ¬ 100 < l.length + [d].length
        simp
        omega)]
      simp

/-- Write commands for one key from a list of time-stamped payloads. -/
def writeCmds {α : Type} (key : String) (ws : List (Nat × α)) :
    List (Nat × CacheCmd α) :=
  ws.map fun p => (p.1, .write key p.2)

/-- Starting from an entry expiring at `exp`, every operation in `ws`
happens no later than the expiration left by its predecessor, and the
final time `tr` is no later than the last expiration.  This is the
"no TTL expiry in between" side condition. -/
def NoExpiryAux {α : Type} (exp : Nat) : List (Nat × α) → Nat → Prop
  | [], tr => tr ≤ exp
  | (t, _) :: rest, tr => t ≤ exp ∧ NoExpiryAux (t + ItemLifetime) rest tr

/-- No TTL expiry strikes inside the write sequence `ws` nor before a
final read at time `tr` (vacuous for an empty write sequence, where the
key simply stays absent). -/
def NoExpiryRun {α : Type} (ws : List (Nat × α)) (tr : Nat) : Prop :=
  match ws with
  | [] => True
  | (t, _) :: rest => NoExpiryAux (t + ItemLifetime) rest tr

/-- Expiration left in the store after the writes in `ws`. -/
def lastExp {α : Type} (exp : Nat) : List (Nat × α) → Nat
  | [] => exp
  | (t, _) :: rest => lastExp (t + ItemLifetime) rest

theorem cacheGet_eq_of_some {α : Type} (s : Store α) (key : String)
    (now : Nat) (q : List α) (exp : Nat) (h : s key = some (q, exp))
    (hle : now ≤ exp) : cacheGet s key now = some q := by
  simp only [cacheGet, h]
  rw [if_neg (by omega)]

theorem cacheGet_eq_of_none {α : Type} (s : Store α) (key : String)
    (now : Nat) (h : s key = none) : cacheGet s key now = none := by
  simp only [cacheGet, h]

theorem cacherRun_writes_from_some {α : Type} (tm : TopicMapStruct)
    (key : String) :
    ∀ (ws : List (Nat × α)) (s : Store α) (q : List α) (exp tr : Nat),
      s key = some (q, exp) → NoExpiryAux exp ws tr →
      (cacherRun tm s (writeCmds key ws)).1 key
          = some ((ws.map Prod.snd).foldl enqueue q, lastExp exp ws)
        ∧ tr ≤ lastExp exp ws := by
  intro ws
  induction ws with
  | nil =>
    intro s q exp tr hs hne
    exact ⟨hs, hne⟩
  | cons p rest ih =>
    obtain ⟨t, d⟩ := p
    intro s q exp tr hs hne
    obtain ⟨ht, hne'⟩ := hne
    have hget : cacheGet s key t = some q := cacheGet_eq_of_some s key t q exp hs ht
    have hs' : cacheSet s key (enqueue q d) t key
        = some (enqueue q d, t + ItemLifetime) := by
      unfold cacheSet
      rw [Function.update_same]
    have ihr := ih (cacheSet s key (enqueue q d) t) (enqueue q d)
      (t + ItemLifetime) tr hs' hne'
    refine ⟨?_, ihr.2⟩
    have hstep : (cacherRun tm s (writeCmds key ((t, d) :: rest))).1
        = (cacherRun tm (cacheSet s key (enqueue q d) t)
            (writeCmds key rest)).1 := by
      simp [writeCmds, cacherRun, cacherStep, hget]
    rw [hstep, ihr.1]
    simp [lastExp]

theorem cacherRun_writes_then_read {α : Type} (tm : TopicMapStruct)
    (key : String) (s : Store α) (ws : List (Nat × α)) (tr : Nat)
    (h0 : s key = none) (hne : NoExpiryRun ws tr) :
    (cacherRun tm s (writeCmds key ws ++ [(tr, .read key)])).2.getLast?
      = some (.reply key
          ((ws.map Prod.snd).drop (ws.length - MaxQueueLength))) := by
  have hread : ∀ s' : Store α, ∀ q : List α,
      cacheGet s' key tr = some q →
      (cacherRun tm s' [(tr, (.read key : CacheCmd α))]).2
        = [.reply key q] := by
    intro s' q hq
    simp [cacherRun, cacherStep, hq]
  rw [cacherRun_append]
  cases ws with
  | nil =>
    have hget : cacheGet s key tr = (none : Option (List α)) :=
      cacheGet_eq_of_none s key tr h0
    simp [writeCmds, cacherRun, cacherStep, hget]
  | cons p rest =>
    obtain ⟨t, d⟩ := p
    have hget : cacheGet s key t = (none : Option (List α)) :=
      cacheGet_eq_of_none s key t h0
    have hs1 : cacheSet s key (enqueue [] d) t key
        = some (enqueue [] d, t + ItemLifetime) := by
      unfold cacheSet
      rw [Function.update_same]
    have hrun := cacherRun_writes_from_some tm key rest
      (cacheSet s key (enqueue [] d) t) (enqueue [] d)
      (t + ItemLifetime) tr hs1 hne
    have hsplit : (cacherRun tm s (writeCmds key ((t, d) :: rest))).1
        = (cacherRun tm (cacheSet s key (enqueue [] d) t)
            (writeCmds key rest)).1 := by
      simp [writeCmds, cacherRun, cacherStep, hget]
    have hfold : (rest.map Prod.snd).foldl enqueue (enqueue [] d)
        = (((t, d) :: rest).map Prod.snd).foldl enqueue [] := by
      simp
    have hQ : cacheGet ((cacherRun tm s (writeCmds key ((t, d) :: rest))).1)
        key tr = some ((((t, d) :: rest).map Prod.snd).foldl enqueue []) := by
      rw [hsplit, ← hfold]
      exact cacheGet_eq_of_some _ key tr _ _ hrun.1 hrun.2
    rw [hread _ _ hQ, List.getLast?_append]
    have hfoldl : (((t, d) :: rest).map Prod.snd).foldl enqueue []
        = (((t, d) :: rest).map Prod.snd).drop
            ((((t, d) :: rest).map Prod.snd).length - MaxQueueLength) :=
      foldl_enqueue_eq_drop _
    rw [hfoldl]
    simp

/-! ## HTTP handlers (`handlers.go`)

The sha256 key hashing of `hashKey` is an external primitive; it is kept
abstract as a function parameter `hashKey : String → String`.  Each
handler definition below records the internal cache/registry key that the
handler derives from its path key. -/

/-- Embeds the `latest` computation of `StreamsGetHandler`: the parsed
query parameter (`none` models an `Atoi` error, including an absent
parameter) is replaced by `MaxQueueLength` when parsing failed, when it
is non-positive, or when it is at least `MaxQueueLength`. -/
def latestParam (p : Option Int) : Int :=
  match p with
  | none => MaxQueueLength
  | some v =>
    if v ≤ 0 ∨ (MaxQueueLength : Int) ≤ v then (MaxQueueLength : Int) else v

/-- Embeds the slicing of `StreamsGetHandler`: with
`lowerBound = max(0, len(messages) - latest)` the handler responds with
`messages[lowerBound:len(messages)]`. -/
def streamsGetSlice {α : Type} (messages : List α) (p : Option Int) :
    List α :=
  let latest := latestParam p
  let lowerBound := max 0 ((messages.length : Int) - latest)
  messages.drop lowerBound.toNat

/-- Internal cache key used by `StreamsPostHandler` for path key `key`:
the handler hashes the key before writing (`key = hashKey(key)`). -/
def StreamsPostHandlerKey (hashKey : String → String) (key : String) :
    String :=
  hashKey key

/-- Internal cache key used by `PushHandler` for path key `key`: the
handler uses the path key as-is (it is already a hash). -/
def PushHandlerKey (hashKey : String → String) (key : String) : String :=
  key

/-- Internal cache key used by `StreamsGetHandler` for path key `key`. -/
def StreamsGetHandlerKey (hashKey : String → String) (key : String) :
    String :=
  hashKey key

/-- Internal registry key used by `StreamsStreamingGetHandler` for path
key `key`. -/
def StreamsStreamingGetHandlerKey (hashKey : String → String)
    (key : String) : String :=
  hashKey key

/-! ## Chunked framing (`Chunk` in `helpers.go`)

Byte strings are modelled as lists of byte values.  `Chunk` is the
translation of `fmt.Sprintf("%x\r\n%v\r\n", len(s), s)`: the lowercase,
unpadded hexadecimal rendering of the byte length, CR LF, the payload
bytes, CR LF. -/

/-- ASCII code of the lowercase hexadecimal digit `d` (for `d < 16`). -/
def hexDigitChar (d : Nat) : Nat :=
  if d < 10 then 48 + d else 87 + d

/-- Base-16 digits of `n`, least-significant first, by repeated division
(`fuel` bounds the recursion and any `fuel ≥ n` is enough). -/
def hexDigitsRev : Nat → Nat → List Nat
  | 0, _ => []
  | _ + 1, 0 => []
  | fuel + 1, n + 1 => ((n + 1) % 16) :: hexDigitsRev fuel ((n + 1) / 16)

/-- Bytes of the `%x` rendering of `n`: most-significant first,
lowercase, no padding, and the single digit `0` for zero. -/
def hexBytes (n : Nat) : List Nat :=
  if n = 0 then [48] else ((hexDigitsRev n n).reverse).map hexDigitChar

/-- Embeds `Chunk`: one HTTP chunk framing the payload `s`. -/
def Chunk (s : List Nat) : List Nat :=
  hexBytes s.length ++ [13, 10] ++ s ++ [13, 10]

/-- Keepalive unit written by the streaming session: `Chunk("\n")`. -/
def keepaliveChunk : List Nat := Chunk [10]

/-- Terminating unit written when a streaming session closes:
`Chunk("")`. -/
def terminatingChunk : List Nat := Chunk []

/-- Value of an ASCII byte as a lowercase hexadecimal digit. -/
def hexDigitVal (c : Nat) : Option Nat :=
  if 48 ≤ c ∧ c ≤ 57 then some (c - 48)
  else if 97 ≤ c ∧ c ≤ 102 then some (c - 87)
  else none

/-- Reads a maximal run of hexadecimal digit bytes, MSB first,
accumulating their value. -/
def hexRead (acc : Nat) : List Nat → Nat × List Nat
  | [] => (acc, [])
  | c :: rest =>
    match hexDigitVal c with
    | some d => hexRead (16 * acc + d) rest
    | none => (acc, c :: rest)

/-- Decodes one complete chunk: a hexadecimal size line terminated by
CR LF, that many payload bytes, CR LF, and nothing more. -/
def chunkDecode (bs : List Nat) : Option (List Nat) :=
  let out := hexRead 0 bs
  match out.2 with
  | 13 :: 10 :: rest =>
    if (rest.take out.1).length = out.1 ∧ rest.drop out.1 = [13, 10] then
      some (rest.take out.1)
    else none
  | _ => none

theorem hexDigitVal_hexDigitChar (d : Nat) (h : d < 16) :
    hexDigitVal (hexDigitChar d) = some d := by
  unfold hexDigitVal hexDigitChar
  by_cases h10 : d < 10
  · rw [if_pos h10, if_pos (by omega)]
    congr 1
    omega
  · rw [if_neg h10, if_neg (by omega), if_pos (by omega)]
    congr 1
    omega

theorem hexRead_digits (rest : List Nat) (hrest : hexDigitVal 13 = none) :
    ∀ (ds : List Nat) (acc : Nat), (∀ d ∈ ds, d < 16) →
    hexRead acc ((ds.map hexDigitChar) ++ 13 :: rest)
      = (ds.foldl (fun a d => 16 * a + d) acc, 13 :: rest) := by
  intro ds
  induction ds with
  | nil =>
    intro acc _
    simp [hexRead, hrest]
  | cons d ds ih =>
    intro acc hds
    have hd : d < 16 := hds d (by simp)
    simp only [List.map_cons, List.cons_append, hexRead,
      hexDigitVal_hexDigitChar d hd, List.foldl_cons]
    exact ih (16 * acc + d) (fun x hx => hds x (by simp [hx]))

theorem hexDigitsRev_lt (fuel n : Nat) :
    ∀ d ∈ hexDigitsRev fuel n, d < 16 := by
  induction fuel generalizing n with
  | zero =>
    intro d hd
    simp [hexDigitsRev] at hd
  | succ fuel ih =>
    intro d hd
    cases n with
    | zero => simp [hexDigitsRev] at hd
    | succ m =>
      simp only [hexDigitsRev, List.mem_cons] at hd
      rcases hd with h | h
      · subst h
        exact Nat.mod_lt _ (by omega)
      · exact ih _ d h

theorem ofDigits_hexDigitsRev (fuel : Nat) :
    ∀ n : Nat, n ≤ fuel → Nat.ofDigits 16 (hexDigitsRev fuel n) = n := by
  induction fuel with
  | zero =>
    intro n hn
    have : n = 0 := by omega
    subst this
    simp [hexDigitsRev]
  | succ fuel ih =>
    intro n hn
    cases n with
    | zero => simp [hexDigitsRev]
    | succ m =>
      have hdiv : (m + 1) / 16 < m + 1 := Nat.div_lt_self (by omega) (by omega)
      rw [hexDigitsRev, Nat.ofDigits_cons, ih ((m + 1) / 16) (by omega)]
      omega

theorem foldl_hex_reverse (L : List Nat) :
    ∀ acc : Nat, (L.reverse).foldl (fun a d => 16 * a + d) acc
      = acc * 16 ^ L.length + Nat.ofDigits 16 L := by
  induction L with
  | nil => simp
  | cons d L ih =>
    intro acc
    rw [List.reverse_cons, List.foldl_append, ih, List.foldl_cons,
      List.foldl_nil, Nat.ofDigits_cons, List.length_cons, pow_succ]
    ring

/-- Reading back the hexadecimal rendering of `n` recovers `n` and stops
at the first non-digit byte. -/
theorem hexRead_hexBytes (n : Nat) (rest : List Nat) :
    hexRead 0 (hexBytes n ++ 13 :: rest) = (n, 13 :: rest) := by
  have h13 : hexDigitVal 13 = none := by decide
  unfold hexBytes
  by_cases h0 : n = 0
  · subst h0
    rw [if_pos rfl]
    simp [hexRead, hexDigitVal, h13]
  · rw [if_neg h0]
    rw [hexRead_digits rest h13 (hexDigitsRev n n).reverse 0
      (fun d hd => hexDigitsRev_lt n n d (List.mem_reverse.mp hd))]
    rw [foldl_hex_reverse]
    simp [ofDigits_hexDigitsRev n n le_rfl]

/-- Round trip: decoding a produced chunk recovers the payload. -/
theorem chunkDecode_Chunk (s : List Nat) : chunkDecode (Chunk s) = some s := by
  unfold chunkDecode Chunk
  rw [List.append_assoc, List.append_assoc]
  rw [show ([13, 10] ++ (s ++ [13, 10])) = 13 :: (10 :: (s ++ [13, 10]))
    by simp]
  rw [hexRead_hexBytes]
  simp

/-! ## Claim theorems -/

/-- Claim C1: for every key and every sequence of N ≥ 0 writes for that
key processed by the cache actor, with no TTL expiry in between, a
subsequent read returns exactly the last `min(N, MaxQueueLength)` written
messages in write order; for N = 0 (key absent) it returns the empty
sequence, and the read always produces a reply (absence is not an
error). -/
theorem claim_C1_read_returns_last_min {α : Type} (tm : TopicMapStruct)
    (s : Store α) (key : String) (ws : List (Nat × α)) (tr : Nat)
    (h0 : s key = none) (hne : NoExpiryRun ws tr) :
    (cacherRun tm s (writeCmds key ws ++ [(tr, .read key)])).2.getLast?
      = some (.reply key
          ((ws.map Prod.snd).drop (ws.length - MaxQueueLength)))
    ∧ ((ws.map Prod.snd).drop (ws.length - MaxQueueLength)).length
      = min ws.length MaxQueueLength := by
  refine ⟨cacherRun_writes_then_read tm key s ws tr h0 hne, ?_⟩
  rw [List.length_drop, List.length_map]
  show ws.length - (ws.length - 100) = min ws.length 100
  omega

theorem claim_C1_witness :
    (cacherRun initTopicMap (fun _ => (none : Option (List Nat × Nat)))
        (writeCmds "k" [(0, 5), (1, 7)] ++ [(2, .read "k")])).2.getLast?
      = some (.reply "k" [5, 7]) := by
  have h := claim_C1_read_returns_last_min initTopicMap
    (fun _ => (none : Option (List Nat × Nat))) "k" [(0, 5), (1, 7)] 2 rfl
    (by exact ⟨by decide, by show (2 : Nat) ≤ 1 + ItemLifetime; decide⟩)
  simpa using h.1

/-- Claim C2 (counterexample evaluation): the registry invariant
"an entry is present iff at least one subscriber is registered" fails on
the code: after one `Register("k")` and the matching `Unregister`, the
map still holds an entry for `"k"` although no subscriber channel
remains.  The stored count is never written back (value-typed map
entries) and the `uint64` decrement of the zero copy wraps to a nonzero
value, so the deletion branch is unreachable. -/
theorem claim_C2_group_persists :
    ((((initTopicMap.Register "k").1).Unregister "k"
        (initTopicMap.Register "k").2).m "k").isSome = true
    ∧ (((initTopicMap.Register "k").1).Unregister "k"
        (initTopicMap.Register "k").2).BroadcastChannels "k" = [] := by
  constructor
  · decide
  · decide

/-- Claim C3 (counterexample evaluation): after two `Register("k")`
calls and one `Unregister` of the first channel, the stored subscriber
count is 0, not 1 as the claim (and the repository's own
`TestTopicCountTracking`) requires, even though one subscriber channel
is still attached; and after unregistering the second channel as well,
the group is still present instead of being deleted. -/
theorem claim_C3_count_and_deletion_fail :
    (((((((initTopicMap.Register "k").1).Register "k").1).Unregister "k"
        0).m "k").map TopicMapEntry.count = some 0)
    ∧ ((((((initTopicMap.Register "k").1).Register "k").1).Unregister "k"
        0).BroadcastChannels "k" = [1])
    ∧ ((((((((initTopicMap.Register "k").1).Register "k").1).Unregister "k"
        0).Unregister "k" 1).m "k").isSome = true) := by
  refine ⟨?_, ?_, ?_⟩
  · decide
  · decide
  · decide

/-- Claim C4: the snapshot read handler clamps the `latest` query
parameter into `[1, MaxQueueLength]` — keeping any in-range value and
silently replacing an absent, unparsable, or out-of-range value by the
maximum — and returns the trailing sub-sequence of at most `latest`
entries of the history in original order. -/
theorem claim_C4_latest_clamped_trailing {α : Type} (messages : List α)
    (p : Option Int) (hL : messages.length ≤ MaxQueueLength) :
    streamsGetSlice messages p
        = messages.drop (messages.length - (latestParam p).toNat)
    ∧ (streamsGetSlice messages p).length
        = min (latestParam p).toNat messages.length
    ∧ 1 ≤ latestParam p
    ∧ latestParam p ≤ MaxQueueLength
    ∧ (p = none → latestParam p = MaxQueueLength)
    ∧ (∀ v, p = some v → v < 1 ∨ (MaxQueueLength : Int) < v →
        latestParam p = MaxQueueLength)
    ∧ (∀ v, p = some v → 1 ≤ v → v ≤ (MaxQueueLength : Int) →
        latestParam p = v) := by
  have hsome : ∀ v : Int,
      latestParam (some v) = if v ≤ 0 ∨ (100 : Int) ≤ v then 100 else v :=
    fun _ => rfl
  have hM : ((MaxQueueLength : Nat) : Int) = (100 : Int) := rfl
  have hbounds : 1 ≤ latestParam p ∧ latestParam p ≤ (100 : Int) := by
    cases p with
    | none => exact ⟨by decide, by decide⟩
    | some v =>
      rw [hsome v]
      by_cases hv : v ≤ 0 ∨ (100 : Int) ≤ v
      · rw [if_pos hv]
        exact ⟨by decide, by decide⟩
      · rw [if_neg hv]
        push_neg at hv
        exact ⟨by omega, by omega⟩
  have hmax : (max 0 ((messages.length : Int) - latestParam p)).toNat
      = messages.length - (latestParam p).toNat := by
    have h1 := hbounds.1
    rcases le_total ((messages.length : Int) - latestParam p) 0 with hle | hle
    · rw [max_eq_left hle]
      omega
    · rw [max_eq_right hle]
      omega
  have hdrop : streamsGetSlice messages p
      = messages.drop (messages.length - (latestParam p).toNat) := by
    unfold streamsGetSlice
    dsimp only
    rw [hmax]
  refine ⟨hdrop, ?_, hbounds.1, hbounds.2, ?_, ?_, ?_⟩
  · rw [hdrop, List.length_drop]
    omega
  · intro hp
    subst hp
    rfl
  · intro v hp hv
    subst hp
    rw [hM] at hv
    rw [hsome v, if_pos (by omega)]
    rfl
  · intro v hp h1 h2
    subst hp
    rw [hM] at h2
    rcases eq_or_lt_of_le h2 with he | hlt
    · rw [hsome v, if_pos (Or.inr (by omega))]
      omega
    · rw [hsome v, if_neg (by omega)]

theorem claim_C4_witness :
    streamsGetSlice [10, 20, 30] (some (2 : Int)) = [20, 30]
    ∧ streamsGetSlice [10, 20, 30] (some (-7 : Int)) = [10, 20, 30]
    ∧ streamsGetSlice [10, 20, 30] (none : Option Int) = [10, 20, 30] := by
  have h2 := claim_C4_latest_clamped_trailing [10, 20, 30] (some 2)
    (by decide)
  have hneg := claim_C4_latest_clamped_trailing [10, 20, 30] (some (-7))
    (by decide)
  have hnone := claim_C4_latest_clamped_trailing [10, 20, 30]
    (none : Option Int) (by decide)
  refine ⟨?_, ?_, ?_⟩
  · rw [h2.1]
    decide
  · rw [hneg.1]
    decide
  · rw [hnone.1]
    decide

/-- Claim C5: `Chunk` frames a payload as the lowercase hexadecimal byte
length, CR LF, the payload, CR LF (a decoder recovers the payload
exactly); the keepalive unit written by a streaming session is the chunk
of the single byte `\n`, namely `"1\r\n\n\r\n"`; and the terminating
unit written on session close is the zero-length chunk `"0\r\n\r\n"`. -/
theorem claim_C5_chunk_framing :
    (∀ s : List Nat, Chunk s = hexBytes s.length ++ [13, 10] ++ s ++ [13, 10])
    ∧ (∀ s : List Nat, chunkDecode (Chunk s) = some s)
    ∧ keepaliveChunk = [49, 13, 10, 10, 13, 10]
    ∧ terminatingChunk = [48, 13, 10, 13, 10] :=
  ⟨fun _ => rfl, chunkDecode_Chunk, by decide, by decide⟩

theorem cacherStep_deliver_data {α : Type} (tm : TopicMapStruct)
    (s : Store α) (now : Nat) (key : String) (d0 : α) (n ch : Nat) (d : α)
    (h : ((cacherStep tm s now (.write key d0)).2)[n]? = some (.deliver ch d)) :
    d0 = d := by
  rcases n with _ | n
  · simp [cacherStep] at h
  · simp only [cacherStep, List.getElem?_cons_succ, List.getElem?_map] at h
    rw [Option.map_eq_some'] at h
    obtain ⟨c, _, hfc⟩ := h
    injection hfc with h1 h2

theorem cacherStep_deliver_has_store {α : Type} (tm : TopicMapStruct)
    (s : Store α) (now : Nat) (cmd : CacheCmd α) (n ch : Nat) (d : α)
    (h : ((cacherStep tm s now cmd).2)[n]? = some (.deliver ch d)) :
    ∃ key, ((cacherStep tm s now cmd).2)[0]? = some (.store key d)
      ∧ 0 < n := by
  cases cmd with
  | read key =>
    rcases n with _ | n
    · simp [cacherStep] at h
    · simp [cacherStep] at h
  | write key d0 =>
    rcases n with _ | n
    · simp [cacherStep] at h
    · have hd : d0 = d :=
        cacherStep_deliver_data tm s now key d0 (n + 1) ch d h
      subst hd
      refine ⟨key, by simp [cacherStep], by omega⟩

/-- Claim C6: in the event trace of any run of the cache actor, every
broadcast delivery of a message is preceded by the store update of that
same message: the write branch persists via `c.Set` before it touches
the topic map. -/
theorem claim_C6_store_before_broadcast {α : Type} (tm : TopicMapStruct) :
    ∀ (cmds : List (Nat × CacheCmd α)) (s : Store α) (n ch : Nat) (d : α),
      ((cacherRun tm s cmds).2)[n]? = some (.deliver ch d) →
      ∃ m key, m < n ∧ ((cacherRun tm s cmds).2)[m]? = some (.store key d) := by
  intro cmds
  induction cmds with
  | nil =>
    intro s n ch d h
    simp [cacherRun] at h
  | cons p rest ih =>
    obtain ⟨now, cmd⟩ := p
    intro s n ch d h
    rw [show cacherRun tm s ((now, cmd) :: rest)
        = ((cacherRun tm (cacherStep tm s now cmd).1 rest).1,
           (cacherStep tm s now cmd).2
             ++ (cacherRun tm (cacherStep tm s now cmd).1 rest).2)
      from rfl] at h ⊢
    by_cases hn : n < (cacherStep tm s now cmd).2.length
    · rw [List.getElem?_append_left hn] at h
      obtain ⟨key, h0, hpos⟩ := cacherStep_deliver_has_store tm s now cmd
        n ch d h
      refine ⟨0, key, hpos, ?_⟩
      rw [List.getElem?_append_left (by omega)]
      exact h0
    · rw [List.getElem?_append_right (by omega)] at h
      obtain ⟨m, key, hm, hst⟩ := ih (cacherStep tm s now cmd).1
        (n - (cacherStep tm s now cmd).2.length) ch d h
      refine ⟨(cacherStep tm s now cmd).2.length + m, key, by omega, ?_⟩
      rw [List.getElem?_append_right (by omega)]
      rw [show (cacherStep tm s now cmd).2.length + m
          - (cacherStep tm s now cmd).2.length = m by omega]
      exact hst

theorem claim_C6_witness :
    ∃ m key,
      m < 1 ∧
      ((cacherRun ((initTopicMap.Register "k").1)
          (fun _ => (none : Option (List Nat × Nat)))
          [(0, .write "k" 42)]).2)[m]?
        = some (.store key 42) :=
  claim_C6_store_before_broadcast ((initTopicMap.Register "k").1)
    [(0, .write "k" 42)] (fun _ => none) 1 0 42 (by decide)

/-- Claim C7: on every reachable registry state, unregistering from a
key with no group, or unregistering a channel that is not attached to
the key's group, leaves the registry exactly as it was; the operation is
total (it never signals an error). -/
theorem claim_C7_unregister_noop (tms : TopicMapStruct) (key : String)
    (ch : Nat) (hreach : ReachableTM tms)
    (habs : tms.m key = none
      ∨ ∃ t, tms.m key = some t ∧ ch ∉ tms.topics t.t) :
    tms.Unregister key ch = tms := by
  rcases habs with hnone | ⟨t, hsome, hch⟩
  · unfold TopicMapStruct.Unregister
    rw [hnone]
  · have hcount : t.count = 0 :=
      countZeroInv_reachable tms hreach key t hsome
    unfold TopicMapStruct.Unregister
    rw [hsome]
    dsimp only
    rw [if_neg (by rw [hcount]; decide)]
    rw [List.erase_of_not_mem hch, Function.update_eq_self]

theorem claim_C7_witness :
    TopicMapStruct.Unregister initTopicMap "nokey" 0 = initTopicMap :=
  claim_C7_unregister_noop initTopicMap "nokey" 0 ⟨[], rfl⟩ (Or.inl rfl)

/-- Claim C8: a write for a key with zero currently-registered
subscriber channels (no group, or a group whose topic has no channels)
emits no delivery event at all — the step's only event is the store
update — and the registry, which the broadcast only reads, is untouched
by construction. -/
theorem claim_C8_broadcast_no_subscribers {α : Type} (tm : TopicMapStruct)
    (s : Store α) (now : Nat) (key : String) (d : α)
    (hzero : tm.BroadcastChannels key = []) :
    (cacherStep tm s now (.write key d)).2 = [.store key d] := by
  simp [cacherStep, hzero]

theorem claim_C8_witness :
    (cacherStep initTopicMap (fun _ => (none : Option (List Nat × Nat))) 0
      (.write "k" 42)).2 = [.store "k" 42] :=
  claim_C8_broadcast_no_subscribers initTopicMap (fun _ => none) 0 "k" 42 rfl

/-- Claim C9: the push handler applied to the hashed key stores under
exactly the internal key the stream POST handler derives from the
plaintext key (the POST handler hashes, the push handler does not), and
that key is also the one the snapshot and streaming readers of the
plaintext topic use; consequently a pushed message is visible as the
last entry of a subsequent snapshot read of the plaintext topic. -/
theorem claim_C9_push_alignment {α : Type} (hashKey : String → String)
    (k : String) (tm : TopicMapStruct) (s : Store α) (now : Nat) (d : α) :
    PushHandlerKey hashKey (hashKey k) = StreamsPostHandlerKey hashKey k
    ∧ PushHandlerKey hashKey (hashKey k) = StreamsGetHandlerKey hashKey k
    ∧ PushHandlerKey hashKey (hashKey k)
        = StreamsStreamingGetHandlerKey hashKey k
    ∧ ∃ msgs : List α,
        (cacherRun tm s
            [(now, .write (PushHandlerKey hashKey (hashKey k)) d),
             (now, .read (StreamsGetHandlerKey hashKey k))]).2.getLast?
          = some (.reply (StreamsGetHandlerKey hashKey k) msgs)
        ∧ msgs.getLast? = some d := by
  refine ⟨rfl, rfl, rfl,
    enqueue ((cacheGet s (hashKey k) now).getD []) d, ?_,
    enqueue_getLast? _ _⟩
  have hs1 : cacheSet s (hashKey k)
      (enqueue ((cacheGet s (hashKey k) now).getD []) d) now (hashKey k)
      = some (enqueue ((cacheGet s (hashKey k) now).getD []) d,
          now + ItemLifetime) := by
    unfold cacheSet
    rw [Function.update_same]
  have hget2 : cacheGet (cacheSet s (hashKey k)
        (enqueue ((cacheGet s (hashKey k) now).getD []) d) now)
        (hashKey k) now
      = some (enqueue ((cacheGet s (hashKey k) now).getD []) d) :=
    cacheGet_eq_of_some _ _ _ _ _ hs1 (by omega)
  simp only [cacherRun, cacherStep, PushHandlerKey, StreamsGetHandlerKey,
    hget2, Option.getD_some, List.append_nil]
  rw [List.getLast?_append]
  simp

/-- Claim C10: processing any sequence of read commands leaves the
history store — every key's entry and its expiration time — completely
unchanged: only the write branch calls `Set`, so a snapshot read never
extends a key's lifetime. -/
theorem claim_C10_read_preserves_store {α : Type} (tm : TopicMapStruct)
    (s : Store α) (cmds : List (Nat × CacheCmd α))
    (h : ∀ p ∈ cmds, ∃ key, p.2 = CacheCmd.read key) :
    (cacherRun tm s cmds).1 = s := by
  induction cmds generalizing s with
  | nil => rfl
  | cons p rest ih =>
    obtain ⟨now, cmd⟩ := p
    obtain ⟨key, hp⟩ := h (now, cmd) (by simp)
    dsimp only at hp
    subst hp
    show (cacherRun tm (cacherStep tm s now (.read key)).1 rest).1 = s
    rw [show (cacherStep tm s now (.read key)).1 = s from rfl]
    exact ih s (fun q hq => h q (by simp [hq]))

theorem claim_C10_witness :
    (cacherRun initTopicMap (fun _ => (none : Option (List Nat × Nat)))
        [(0, .read "a"), (5, .read "b")]).1
      = (fun _ => (none : Option (List Nat × Nat))) :=
  claim_C10_read_preserves_store initTopicMap (fun _ => none)
    [(0, .read "a"), (5, .read "b")]
    (by
      intro p hp
      fin_cases hp
      · exact ⟨"a", rfl⟩
      · exact ⟨"b", rfl⟩)

end Gweet
